import Mathlib

/-!
# Verification of `fetch_utils.py` (kittycapital/shared-workflows)

Shallow embedding of the retrying HTTP fetcher `fetch_with_retry`, the
CoinGecko rate limiter `_coingecko_rate_limit`, and the JSON persistence
helpers `save_json` / `load_json`, together with proofs of the testable
properties stated in the repository specification.

Modelling conventions:
* HTTP interaction is abstracted by an *outcome oracle* `oc : Nat → Outcome`
  giving, for each zero-based attempt index, what the attempt observes
  (a response with a status code and optional integral `Retry-After`
  header, a timeout, a connection error, or some other raised exception).
* Durations (`base_delay`, sleeps, clock readings) are rationals `ℚ`;
  Python `int(...)` truncation toward zero is `pyInt`.
* `time.sleep` raises `ValueError` on a negative argument; this is
  modelled by `pySleep` returning `Except`.  The whole fetcher returns
  `Except PyExn FetchTrace` so that "no exception escapes" is a provable
  statement rather than a typing artefact.
* A `FetchTrace` records the observable behaviour of one call: the list
  of sleep durations in order, the returned value (`some i` = the response
  received on attempt `i`; `none` = Python `None`), and how many attempts
  were made.
-/

/-- What one HTTP attempt observes: a response (status code plus the
`Retry-After` header as an integer when present), or one of the exception
classes raised by `requests`. -/
inductive Outcome
  | resp (status : Nat) (retryAfter : Option Int)
  | timeout
  | connError
  | otherExn
  deriving DecidableEq, Repr

/-- Python exception classes that appear in `fetch_with_retry`:
`requests.exceptions.Timeout`, `requests.exceptions.ConnectionError`,
`ValueError` (from `time.sleep` on a negative duration) and a catch-all
for any other `Exception`. -/
inductive PyExn
  | timeout
  | connectionError
  | valueError
  | otherError
  deriving DecidableEq, Repr

/-- Python `int(q)`: truncation toward zero. -/
def pyInt (q : ℚ) : Int := if 0 ≤ q then ⌊q⌋ else ⌈q⌉

/-- `time.sleep(d)`: succeeds for `d ≥ 0`, raises `ValueError` otherwise. -/
def pySleep (d : ℚ) : Except PyExn Unit :=
  if 0 ≤ d then .ok () else .error .valueError

/-- The wait used in the 429 branch (line 79 of `fetch_utils.py`):
`int(resp.headers.get("Retry-After", base_delay * (2 ** attempt)))`.
A present header is already an integer; the absent-header default is the
float `base_delay * 2^attempt`, truncated by `int`. -/
def wait429 (base_delay : ℚ) (hdr : Option Int) (attempt : Nat) : Int :=
  match hdr with
  | some n => n
  | none => pyInt (base_delay * 2 ^ attempt)

/-- Result of the `try:` block of one attempt (lines 66–97). -/
inductive TryOut
  | success
  | rateLimited (wait : ℚ)
  | clientError
  | serverError
  deriving DecidableEq, Repr

/-- The `try:` block of one attempt of `fetch_with_retry` (lines 66–97):
issue the request, then
* status 200 → return the response;
* status 429 → compute `wait429` and `time.sleep` it (inside the `try`),
  then `continue`;
* status in [400, 500) → return `None`;
* any other status → fall through to the trailing backoff;
exceptions raised by the request (or by the sleep) escape the block. -/
def tryBody (oc : Nat → Outcome) (base_delay : ℚ) (attempt : Nat) :
    Except PyExn TryOut :=
  match oc attempt with
  | .timeout => .error .timeout
  | .connError => .error .connectionError
  | .otherExn => .error .otherError
  | .resp status hdr =>
    if status = 200 then .ok .success
    else if status = 429 then
      let retry_after : Int := wait429 base_delay hdr attempt
      match pySleep (retry_after : ℚ) with
      | .ok _ => .ok (.rateLimited (retry_after : ℚ))
      | .error e => .error e
    else if 400 ≤ status ∧ status < 500 then .ok .clientError
    else .ok .serverError

/-- Observable behaviour of one `fetch_with_retry` call: the sleeps
performed (in order), the returned value (`some i` = the response of
attempt `i`, `none` = Python `None`), and the number of attempts made. -/
structure FetchTrace where
  sleeps : List ℚ
  result : Option Nat
  attempts : Nat
  deriving DecidableEq, Repr

/-- The `for attempt in range(max_retries)` loop of `fetch_with_retry`
(lines 65–106), over the list of remaining attempt indices.  Each
iteration runs `tryBody`; the `except` clauses (lines 92–97: `Timeout`,
`ConnectionError`, bare `Exception`) all fall through, like a 5xx
response, to the trailing backoff (lines 100–103) which sleeps
`base_delay * 2^attempt` only while `attempt < max_retries - 1`.
Falling off the loop returns `None` (line 106). -/
def fetchLoop (oc : Nat → Outcome) (max_retries : Nat) (base_delay : ℚ) :
    List Nat → Except PyExn FetchTrace
  | [] => .ok ⟨[], none, 0⟩
  | attempt :: rest =>
    let backoff : Except PyExn FetchTrace :=
      if attempt < max_retries - 1 then
        let delay := base_delay * 2 ^ attempt
        match pySleep delay with
        | .ok _ =>
          match fetchLoop oc max_retries base_delay rest with
          | .ok t => .ok ⟨delay :: t.sleeps, t.result, t.attempts + 1⟩
          | .error e => .error e
        | .error e => .error e
      else
        match fetchLoop oc max_retries base_delay rest with
        | .ok t => .ok ⟨t.sleeps, t.result, t.attempts + 1⟩
        | .error e => .error e
    match tryBody oc base_delay attempt with
    | .ok .success => .ok ⟨[], some attempt, 1⟩
    | .ok .clientError => .ok ⟨[], none, 1⟩
    | .ok (.rateLimited w) =>
      match fetchLoop oc max_retries base_delay rest with
      | .ok t => .ok ⟨w :: t.sleeps, t.result, t.attempts + 1⟩
      | .error e => .error e
    | .ok .serverError => backoff
    | .error .timeout => backoff
    | .error .connectionError => backoff
    | .error _ => backoff

/-- `fetch_with_retry(url, ..., max_retries, base_delay, ...)`:
run the attempt loop over `range(max_retries)`. -/
def fetchWithRetry (oc : Nat → Outcome) (max_retries : Nat) (base_delay : ℚ) :
    Except PyExn FetchTrace :=
  fetchLoop oc max_retries base_delay (List.range max_retries)

/-- The process-wide CoinGecko rate limiter `_coingecko_rate_limit`
(lines 116–122): given the recorded last-call timestamp and the current
clock reading, return the sleep performed and the new recorded timestamp.
`time.sleep` is modelled as advancing the clock by exactly the requested
duration, and the second `time.time()` reads the post-sleep clock. -/
def rateLimitStep (last now : ℚ) : ℚ × ℚ :=
  let elapsed := now - last
  if elapsed < 12 then (12 - elapsed, now + (12 - elapsed)) else (0, now)

/-- A sequence of invocations of `_coingecko_rate_limit`: `ds` lists the
(arbitrary) clock advances between the end of one invocation and the
start of the next; the result lists the recorded last-call timestamps,
i.e. the instants at which the successive CoinGecko calls proceed. -/
def rateLimitRun (last clock : ℚ) : List ℚ → List ℚ
  | [] => []
  | d :: ds =>
    let now := clock + d
    let newLast := (rateLimitStep last now).2
    newLast :: rateLimitRun newLast newLast ds

lemma rateLimitStep_ge (last now : ℚ) : last + 12 ≤ (rateLimitStep last now).2 := by
  rw [rateLimitStep]
  split_ifs with h <;> dsimp only <;> linarith

lemma rateLimitRun_chain (ds : List ℚ) :
    ∀ last clock : ℚ,
      List.Chain (fun a b => a + 12 ≤ b) last (rateLimitRun last clock ds) := by
  induction ds with
  | nil => intro last clock; exact List.Chain.nil
  | cons d ds ih =>
    intro last clock
    exact List.Chain.cons (rateLimitStep_ge last (clock + d)) (ih _ _)


/-! ### Step lemmas for one iteration of the attempt loop -/

lemma fetchLoop_nil (oc : Nat → Outcome) (mr : Nat) (bd : ℚ) :
    fetchLoop oc mr bd [] = .ok ⟨[], none, 0⟩ := rfl

lemma fetchLoop_cons_success (oc : Nat → Outcome) (mr : Nat) (bd : ℚ) (a : Nat)
    (l : List Nat) (h : tryBody oc bd a = .ok .success) :
    fetchLoop oc mr bd (a :: l) = .ok ⟨[], some a, 1⟩ := by
  simp only [fetchLoop, h]

lemma fetchLoop_cons_client (oc : Nat → Outcome) (mr : Nat) (bd : ℚ) (a : Nat)
    (l : List Nat) (h : tryBody oc bd a = .ok .clientError) :
    fetchLoop oc mr bd (a :: l) = .ok ⟨[], none, 1⟩ := by
  simp only [fetchLoop, h]

lemma fetchLoop_cons_rateLimited (oc : Nat → Outcome) (mr : Nat) (bd : ℚ) (a : Nat)
    (l : List Nat) (w : ℚ) (t : FetchTrace)
    (h : tryBody oc bd a = .ok (.rateLimited w)) (ht : fetchLoop oc mr bd l = .ok t) :
    fetchLoop oc mr bd (a :: l) = .ok ⟨w :: t.sleeps, t.result, t.attempts + 1⟩ := by
  simp only [fetchLoop, h, ht]

/-- A retryable failure: a non-2xx/4xx status (the `serverError` fall-through)
or any caught exception. -/
def retryableAt (oc : Nat → Outcome) (bd : ℚ) (a : Nat) : Prop :=
  tryBody oc bd a = .ok .serverError ∨ ∃ e, tryBody oc bd a = .error e

lemma fetchLoop_cons_retry_last (oc : Nat → Outcome) (mr : Nat) (bd : ℚ) (a : Nat)
    (l : List Nat) (t : FetchTrace) (h : retryableAt oc bd a) (hlt : ¬ a < mr - 1)
    (ht : fetchLoop oc mr bd l = .ok t) :
    fetchLoop oc mr bd (a :: l) = .ok ⟨t.sleeps, t.result, t.attempts + 1⟩ := by
  rcases h with h | ⟨e, h⟩
  · simp only [fetchLoop, h, if_neg hlt, ht]
  · cases e <;> simp only [fetchLoop, h, if_neg hlt, ht]

lemma fetchLoop_cons_retry_sleep (oc : Nat → Outcome) (mr : Nat) (bd : ℚ) (a : Nat)
    (l : List Nat) (t : FetchTrace) (h : retryableAt oc bd a) (hlt : a < mr - 1)
    (hbd : 0 ≤ bd) (ht : fetchLoop oc mr bd l = .ok t) :
    fetchLoop oc mr bd (a :: l) =
      .ok ⟨bd * 2 ^ a :: t.sleeps, t.result, t.attempts + 1⟩ := by
  have hsleep : pySleep (bd * 2 ^ a) = .ok () := by
    rw [pySleep, if_pos (mul_nonneg hbd (by positivity))]
  rcases h with h | ⟨e, h⟩
  · simp only [fetchLoop, h, if_pos hlt, hsleep, ht]
  · cases e <;> simp only [fetchLoop, h, if_pos hlt, hsleep, ht]

/-! ### Classification of one attempt by its outcome -/

lemma tryBody_200 (oc : Nat → Outcome) (bd : ℚ) (a : Nat) (hdr : Option Int)
    (h : oc a = .resp 200 hdr) : tryBody oc bd a = .ok .success := by
  simp [tryBody, h]

lemma tryBody_429 (oc : Nat → Outcome) (bd : ℚ) (a : Nat) (hdr : Option Int)
    (h : oc a = .resp 429 hdr) (hw : 0 ≤ wait429 bd hdr a) :
    tryBody oc bd a = .ok (.rateLimited (wait429 bd hdr a : ℚ)) := by
  have hs : pySleep ((wait429 bd hdr a : Int) : ℚ) = .ok () := by
    rw [pySleep, if_pos (by exact_mod_cast hw)]
  simp [tryBody, h, hs]

lemma tryBody_4xx (oc : Nat → Outcome) (bd : ℚ) (a : Nat) (s : Nat) (hdr : Option Int)
    (h : oc a = .resp s hdr) (h400 : 400 ≤ s) (h500 : s < 500) (h429 : s ≠ 429) :
    tryBody oc bd a = .ok .clientError := by
  have h200 : s ≠ 200 := by omega
  simp [tryBody, h, h200, h429, h400, h500]

lemma tryBody_5xx (oc : Nat → Outcome) (bd : ℚ) (a : Nat) (s : Nat) (hdr : Option Int)
    (h : oc a = .resp s hdr) (h500 : 500 ≤ s) :
    tryBody oc bd a = .ok .serverError := by
  have h200 : s ≠ 200 := by omega
  have h429 : s ≠ 429 := by omega
  have h4 : ¬(400 ≤ s ∧ s < 500) := by omega
  simp [tryBody, h, h200, h429, h4]

lemma retryableAt_of_500 (oc : Nat → Outcome) (bd : ℚ) (a : Nat) (s : Nat)
    (hdr : Option Int) (h : oc a = .resp s hdr) (h500 : 500 ≤ s) :
    retryableAt oc bd a :=
  Or.inl (tryBody_5xx oc bd a s hdr h h500)

lemma retryableAt_of_exn (oc : Nat → Outcome) (bd : ℚ) (a : Nat)
    (h : oc a = .timeout ∨ oc a = .connError ∨ oc a = .otherExn) :
    retryableAt oc bd a := by
  rcases h with h | h | h
  · exact Or.inr ⟨.timeout, by simp [tryBody, h]⟩
  · exact Or.inr ⟨.connectionError, by simp [tryBody, h]⟩
  · exact Or.inr ⟨.otherError, by simp [tryBody, h]⟩

/-! ### Whole-run lemmas -/

lemma fetchLoop_all_500 (oc : Nat → Outcome) (mr : Nat) (bd : ℚ) (hdr : Nat → Option Int)
    (hbd : 0 ≤ bd) :
    ∀ n a, a + n = mr → (∀ i, a ≤ i → i < mr → oc i = .resp 500 (hdr i)) →
      fetchLoop oc mr bd (List.range' a n) =
        .ok ⟨(List.range' a (n - 1)).map (fun i => bd * 2 ^ i), none, n⟩ := by
  intro n
  induction n with
  | zero => intro a _ _; simp [fetchLoop_nil]
  | succ m ih =>
    intro a ha hoc
    have hretry : retryableAt oc bd a :=
      retryableAt_of_500 oc bd a 500 (hdr a) (hoc a le_rfl (by omega)) le_rfl
    rw [List.range'_succ]
    cases m with
    | zero =>
      have h0 : fetchLoop oc mr bd (List.range' (a + 1) 0) = .ok ⟨[], none, 0⟩ :=
        fetchLoop_nil oc mr bd
      rw [fetchLoop_cons_retry_last oc mr bd a _ ⟨[], none, 0⟩ hretry (by omega) h0]
      simp
    | succ k =>
      have ihr := ih (a + 1) (by omega) (fun i h1 h2 => hoc i (by omega) h2)
      rw [fetchLoop_cons_retry_sleep oc mr bd a _ _ hretry (by omega) hbd ihr]
      simp [List.range'_succ]

lemma fetchLoop_all_429 (oc : Nat → Outcome) (mr : Nat) (bd : ℚ) (hdr : Nat → Option Int) :
    ∀ n a, a + n = mr → (∀ i, a ≤ i → i < mr → oc i = .resp 429 (hdr i)) →
      (∀ i, i < mr → 0 ≤ wait429 bd (hdr i) i) →
      fetchLoop oc mr bd (List.range' a n) =
        .ok ⟨(List.range' a n).map (fun i => (wait429 bd (hdr i) i : ℚ)), none, n⟩ := by
  intro n
  induction n with
  | zero => intro a _ _ _; simp [fetchLoop_nil]
  | succ m ih =>
    intro a ha hoc hw
    have htb := tryBody_429 oc bd a (hdr a) (hoc a le_rfl (by omega)) (hw a (by omega))
    rw [List.range'_succ]
    have ihr := ih (a + 1) (by omega) (fun i h1 h2 => hoc i (by omega) h2) hw
    rw [fetchLoop_cons_rateLimited oc mr bd a _ _ _ htb ihr]
    simp [List.range'_succ]

/-- **C1.** For every request whose every attempt receives HTTP 500,
`fetch_with_retry` makes exactly `max_retries` attempts, sleeps
`base_delay * 2^i` between attempt `i` and attempt `i+1` (zero-based; the
sleeps list has one entry per attempt except the last), and then returns
`None` — raising no exception. -/
theorem fetch_all_500_exact_attempts_and_backoff (oc : Nat → Outcome) (mr : Nat)
    (bd : ℚ) (hdr : Nat → Option Int) (hbd : 0 ≤ bd)
    (h : ∀ i, i < mr → oc i = .resp 500 (hdr i)) :
    fetchWithRetry oc mr bd =
      .ok ⟨(List.range (mr - 1)).map (fun i => bd * 2 ^ i), none, mr⟩ := by
  rw [fetchWithRetry, List.range_eq_range',
    fetchLoop_all_500 oc mr bd hdr hbd mr 0 (by omega) (fun i _ h2 => h i h2),
    List.range_eq_range']

/-- Witness for C1: three attempts all answered 500 with `base_delay = 2`
give sleeps `[2, 4]`, three attempts, and `None`. -/
theorem fetch_all_500_exact_attempts_and_backoff_witness :
    fetchWithRetry (fun _ => Outcome.resp 500 none) 3 2 =
      .ok ⟨[2, 4], none, 3⟩ := by
  rw [fetch_all_500_exact_attempts_and_backoff (fun _ => Outcome.resp 500 none) 3 2
    (fun _ => none) (by norm_num) (fun i _ => rfl)]
  norm_num [List.range_succ]

/-- **C10.** For every request whose every attempt receives HTTP 429 (with
nonnegative waits), each 429 response consumes one of the `max_retries`
attempts, the fetcher sleeps its 429 wait (`wait429`) after *every*
attempt including the final one, and then returns `None`: the sleeps list
maps `wait429` over all of `range max_retries`. -/
theorem fetch_all_429_sleeps_after_every_attempt (oc : Nat → Outcome) (mr : Nat)
    (bd : ℚ) (hdr : Nat → Option Int)
    (h : ∀ i, i < mr → oc i = .resp 429 (hdr i))
    (hw : ∀ i, i < mr → 0 ≤ wait429 bd (hdr i) i) :
    fetchWithRetry oc mr bd =
      .ok ⟨(List.range mr).map (fun i => (wait429 bd (hdr i) i : ℚ)), none, mr⟩ := by
  rw [fetchWithRetry, List.range_eq_range',
    fetchLoop_all_429 oc mr bd hdr mr 0 (by omega) (fun i _ h2 => h i h2) hw]

/-- Witness for C10: two attempts, both 429 with `Retry-After: 5`: two
sleeps of 5 (including after the final attempt), two attempts, `None`. -/
theorem fetch_all_429_sleeps_after_every_attempt_witness :
    fetchWithRetry (fun _ => Outcome.resp 429 (some 5)) 2 1 =
      .ok ⟨[5, 5], none, 2⟩ := by
  rw [fetch_all_429_sleeps_after_every_attempt (fun _ => Outcome.resp 429 (some 5)) 2 1
    (fun _ => some 5) (fun i _ => rfl) (fun i _ => by norm_num [wait429])]
  norm_num [List.range_succ, wait429]

/-- **C2.** For every attempt of `fetch_with_retry` that receives HTTP 429
with a `Retry-After` header giving an integer number of seconds `n ≥ 0`,
the fetcher sleeps exactly `n` seconds before the next attempt —
independently of `base_delay`, which is universally quantified and absent
from the sleep — and adds no trailing exponential-backoff sleep for that
attempt: the trace of the loop poised at attempt `i` is exactly one sleep
of `n` consed onto the trace of the remaining attempts. -/
theorem fetch_429_header_sleeps_exactly_header (oc : Nat → Outcome) (mr : Nat)
    (bd : ℚ) (i : Nat) (l : List Nat) (n : Int) (hn : 0 ≤ n)
    (hoc : oc i = .resp 429 (some n)) (t : FetchTrace)
    (ht : fetchLoop oc mr bd l = .ok t) :
    fetchLoop oc mr bd (i :: l) =
      .ok ⟨(n : ℚ) :: t.sleeps, t.result, t.attempts + 1⟩ := by
  have htb := tryBody_429 oc bd i (some n) hoc (by simpa [wait429] using hn)
  rw [fetchLoop_cons_rateLimited oc mr bd i l _ t htb ht]
  rfl

/-- Witness for C2: attempt 0 answers 429 with `Retry-After: 5` while
`base_delay = 7`; the fetcher sleeps 5 (not `7 * 2^0`), then proceeds. -/
theorem fetch_429_header_sleeps_exactly_header_witness :
    fetchLoop (fun j => if j = 0 then Outcome.resp 429 (some 5)
        else Outcome.resp 200 none) 2 7 [0, 1] =
      .ok ⟨[5], some 1, 2⟩ := by
  have ht : fetchLoop (fun j => if j = 0 then Outcome.resp 429 (some 5)
      else Outcome.resp 200 none) 2 7 [1] = .ok ⟨[], some 1, 1⟩ :=
    fetchLoop_cons_success _ 2 7 1 [] (tryBody_200 _ 7 1 none (by norm_num))
  have := fetch_429_header_sleeps_exactly_header
    (fun j => if j = 0 then Outcome.resp 429 (some 5) else Outcome.resp 200 none)
    2 7 0 [1] 5 (by norm_num) (by norm_num) ⟨[], some 1, 1⟩ ht
  simpa using this

/-- **C3, corrected statement's counterexample.** The claim "on a 429 with
no `Retry-After` header at attempt `i` the fetcher sleeps
`base_delay * 2^i`, for every positive `base_delay` including non-integer
values" fails: with `base_delay = 1/2` and a single attempt answered 429
without header, the code sleeps `int(1/2 * 2^0) = 0` seconds, not
`1/2 * 2^0 = 1/2`. -/
theorem fetch_429_no_header_fractional_delay_counterexample :
    fetchWithRetry (fun _ => Outcome.resp 429 none) 1 (1/2) =
      .ok ⟨[0], none, 1⟩ ∧ (0 : ℚ) ≠ 1/2 * 2 ^ (0 : ℕ) := by
  constructor
  · have h : List.range 1 = [0] := by decide
    rw [fetchWithRetry, h]
    norm_num [fetchLoop, tryBody, pySleep, wait429, pyInt]
  · norm_num

/-- **C3, amended.** For every attempt `i` of `fetch_with_retry` that
receives HTTP 429 with no `Retry-After` header, the fetcher sleeps
`int(base_delay * 2^i)` seconds — the backoff value truncated toward zero
by Python's `int()` — before the next attempt.  This equals
`base_delay * 2^i` whenever that product is an integer (e.g. 2 seconds
for `base_delay = 2` on attempt 0) but truncates non-integer values. -/
theorem fetch_429_no_header_sleeps_truncated_backoff (oc : Nat → Outcome) (mr : Nat)
    (bd : ℚ) (i : Nat) (l : List Nat) (hbd : 0 ≤ bd) (hoc : oc i = .resp 429 none)
    (t : FetchTrace) (ht : fetchLoop oc mr bd l = .ok t) :
    fetchLoop oc mr bd (i :: l) =
      .ok ⟨((pyInt (bd * 2 ^ i) : Int) : ℚ) :: t.sleeps, t.result, t.attempts + 1⟩ := by
  have hw : 0 ≤ wait429 bd none i := by
    rw [wait429, pyInt, if_pos (mul_nonneg hbd (by positivity))]
    exact Int.floor_nonneg.mpr (mul_nonneg hbd (by positivity))
  have htb := tryBody_429 oc bd i none hoc hw
  rw [fetchLoop_cons_rateLimited oc mr bd i l _ t htb ht]
  rfl

/-- Witness for amended C3: `base_delay = 2`, attempt 0 answered 429 with
no header: the sleep is `int(2 * 2^0) = 2` seconds, as the spec's
concrete scenario demands. -/
theorem fetch_429_no_header_sleeps_truncated_backoff_witness :
    fetchLoop (fun _ => Outcome.resp 429 none) 1 2 [0] =
      .ok ⟨[2], none, 1⟩ := by
  have := fetch_429_no_header_sleeps_truncated_backoff (fun _ => Outcome.resp 429 none)
    1 2 0 [] (by norm_num) rfl ⟨[], none, 0⟩ (fetchLoop_nil _ 1 2)
  rw [this]
  norm_num [pyInt]

/-- **C4.** For every outcome oracle, every retry budget and every
nonnegative `base_delay` (the spec requires `base_delay > 0`),
`fetch_with_retry` never lets an exception propagate to its caller:
timeouts, connection errors and any other failure during an attempt are
caught internally, and the call evaluates to `Except.ok` of some trace —
the caller always receives a response value or `None`. -/
theorem fetch_never_raises (oc : Nat → Outcome) (mr : Nat) (bd : ℚ) (hbd : 0 ≤ bd) :
    ∃ t, fetchWithRetry oc mr bd = .ok t := by
  rw [fetchWithRetry]
  generalize List.range mr = l
  induction l with
  | nil => exact ⟨_, fetchLoop_nil oc mr bd⟩
  | cons a rest ih =>
    obtain ⟨t, ht⟩ := ih
    rcases htb : tryBody oc bd a with e | o
    · by_cases hlt : a < mr - 1
      · exact ⟨_, fetchLoop_cons_retry_sleep oc mr bd a rest t (Or.inr ⟨e, htb⟩) hlt hbd ht⟩
      · exact ⟨_, fetchLoop_cons_retry_last oc mr bd a rest t (Or.inr ⟨e, htb⟩) hlt ht⟩
    · cases o with
      | success => exact ⟨_, fetchLoop_cons_success oc mr bd a rest htb⟩
      | clientError => exact ⟨_, fetchLoop_cons_client oc mr bd a rest htb⟩
      | rateLimited w => exact ⟨_, fetchLoop_cons_rateLimited oc mr bd a rest w t htb ht⟩
      | serverError =>
        by_cases hlt : a < mr - 1
        · exact ⟨_, fetchLoop_cons_retry_sleep oc mr bd a rest t (Or.inl htb) hlt hbd ht⟩
        · exact ⟨_, fetchLoop_cons_retry_last oc mr bd a rest t (Or.inl htb) hlt ht⟩

/-- Witness for C4: three attempts that all time out still produce an
`Except.ok` result. -/
theorem fetch_never_raises_witness :
    ∃ t, fetchWithRetry (fun _ => Outcome.timeout) 3 1 = .ok t :=
  fetch_never_raises (fun _ => Outcome.timeout) 3 1 (by norm_num)

/-- **C5.** For every request whose first attempt receives an HTTP status
in `[400, 500)` other than 429, `fetch_with_retry` returns `None`
immediately after exactly one attempt, with no retries and no sleep. -/
theorem fetch_4xx_immediate_absent (oc : Nat → Outcome) (mr : Nat) (bd : ℚ)
    (s : Nat) (hdr : Option Int) (hmr : 1 ≤ mr) (h400 : 400 ≤ s) (h500 : s < 500)
    (h429 : s ≠ 429) (hoc : oc 0 = .resp s hdr) :
    fetchWithRetry oc mr bd = .ok ⟨[], none, 1⟩ := by
  obtain ⟨k, rfl⟩ : ∃ k, mr = k + 1 := ⟨mr - 1, by omega⟩
  rw [fetchWithRetry, List.range_eq_range', List.range'_succ,
    fetchLoop_cons_client _ _ bd 0 _ (tryBody_4xx oc bd 0 s hdr hoc h400 h500 h429)]

/-- Witness for C5: a 404 on the first of three allowed attempts gives
`None`, one attempt, no sleeps. -/
theorem fetch_4xx_immediate_absent_witness :
    fetchWithRetry (fun _ => Outcome.resp 404 none) 3 2 = .ok ⟨[], none, 1⟩ :=
  fetch_4xx_immediate_absent (fun _ => Outcome.resp 404 none) 3 2 404 none
    (by norm_num) (by norm_num) (by norm_num) (by norm_num) rfl

/-- **C6.** For every request whose first attempt receives HTTP 200,
`fetch_with_retry` returns that response (the response of attempt 0) as a
success on the first attempt, with no further attempts and no sleep. -/
theorem fetch_200_first_attempt_success (oc : Nat → Outcome) (mr : Nat) (bd : ℚ)
    (hdr : Option Int) (hmr : 1 ≤ mr) (hoc : oc 0 = .resp 200 hdr) :
    fetchWithRetry oc mr bd = .ok ⟨[], some 0, 1⟩ := by
  obtain ⟨k, rfl⟩ : ∃ k, mr = k + 1 := ⟨mr - 1, by omega⟩
  rw [fetchWithRetry, List.range_eq_range', List.range'_succ,
    fetchLoop_cons_success _ _ bd 0 _ (tryBody_200 oc bd 0 hdr hoc)]

/-- Witness for C6: HTTP 200 on the first of three allowed attempts
returns that response with no sleeps. -/
theorem fetch_200_first_attempt_success_witness :
    fetchWithRetry (fun _ => Outcome.resp 200 none) 3 2 = .ok ⟨[], some 0, 1⟩ :=
  fetch_200_first_attempt_success (fun _ => Outcome.resp 200 none) 3 2 none
    (by norm_num) rfl

/-- **C7.** The spec's concrete scenario: `max_retries = 3`,
`base_delay = 1`, and a server answering 500, 500, 200 on successive
attempts.  The fetch succeeds on the third attempt (index 2), having
slept 1 second after the first attempt and 2 seconds after the second. -/
theorem fetch_scenario_500_500_200 :
    fetchWithRetry (fun i => if i < 2 then Outcome.resp 500 none
        else Outcome.resp 200 none) 3 1 =
      .ok ⟨[1, 2], some 2, 3⟩ := by
  have h : List.range 3 = [0, 1, 2] := by decide
  rw [fetchWithRetry, h]
  norm_num [fetchLoop, tryBody, pySleep, wait429, pyInt]

/-- **C8.** Across every sequence of invocations of the CoinGecko rate
limiter (single-threaded, with `time.sleep` blocking for exactly the
requested duration), no two consecutive calls proceed less than 12
seconds apart: the recorded last-call timestamps of successive
invocations always differ by at least 12, whatever the starting timestamp,
clock, and inter-arrival delays. -/
theorem rate_limiter_min_12s_spacing (last clock : ℚ) (ds : List ℚ) :
    List.Chain' (fun a b => a + 12 ≤ b) (rateLimitRun last clock ds) := by
  cases ds with
  | nil => exact List.chain'_nil
  | cons d ds =>
    exact rateLimitRun_chain ds _ _

/-!
## JSON persistence: `save_json` / `load_json`

`save_json` (lines 281–298) delegates to `json.dump(data, f,
ensure_ascii=False, indent=indent)` and `load_json` (lines 300–309) to
`json.load(f)`.  The Python `json` machinery is modelled for the
JSON-serialisable fragment the repository traffics in: values built from
`None`, `bool`, `int`, `str`, `list` and `dict` (no floats, whose textual
round-trip is a property of IEEE-754 `repr`, and no tuples).  Dict keys
are the hashable JSON-encodable keys of that fragment: `str`, `int`,
`bool`, `None` — exactly the coercions CPython's
`json.encoder._make_iterencode` performs.  The decoder is modelled on
`json.load`: it skips JSON whitespace, parses the six value forms
(integer numerals only, matching what the encoder fragment emits), and
builds objects by dict insertion (later duplicate keys overwrite
earlier ones, as Python's `dict` does).
-/

/-- A hashable, JSON-encodable Python dict key. -/
inductive PyKey
  | str (s : List Char)
  | int (n : Int)
  | bool (b : Bool)
  | null
  deriving DecidableEq, Repr

/-- A Python value in the JSON-serialisable fragment. -/
inductive PyVal
  | null
  | bool (b : Bool)
  | int (n : Int)
  | str (s : List Char)
  | list (xs : List PyVal)
  | dict (kvs : List (PyKey × PyVal))
  deriving Repr

/-- Decimal digit character. -/
def digitChar : Nat → Char
  | 0 => '0' | 1 => '1' | 2 => '2' | 3 => '3' | 4 => '4'
  | 5 => '5' | 6 => '6' | 7 => '7' | 8 => '8' | _ => '9'

/-- Lowercase hexadecimal digit character (as in Python's `'\\u%04x'`). -/
def hexChar : Nat → Char
  | 0 => '0' | 1 => '1' | 2 => '2' | 3 => '3' | 4 => '4'
  | 5 => '5' | 6 => '6' | 7 => '7' | 8 => '8' | 9 => '9'
  | 10 => 'a' | 11 => 'b' | 12 => 'c' | 13 => 'd' | 14 => 'e' | _ => 'f'

/-- Decimal digits of a natural number, most significant first
(Python `repr` for nonnegative ints). -/
def natToChars (n : Nat) : List Char :=
  if n = 0 then ['0'] else ((Nat.digits 10 n).map digitChar).reverse

/-- Python `repr` of an `int`. -/
def intToChars : Int → List Char
  | .ofNat n => natToChars n
  | .negSucc n => '-' :: natToChars (n + 1)

/-- The characters of the JSON literal `null`. -/
def nullChars : List Char := ['n', 'u', 'l', 'l']

/-- The characters of the JSON literal `true`. -/
def trueChars : List Char := ['t', 'r', 'u', 'e']

/-- The characters of the JSON literal `false`. -/
def falseChars : List Char := ['f', 'a', 'l', 's', 'e']

/-- The string the JSON encoder uses for a dict key: `str` keys verbatim,
`int` keys via `repr`, `True`/`False`/`None` as their JSON literals
(CPython `json.encoder._make_iterencode._iterencode_dict`). -/
def keyToChars : PyKey → List Char
  | .str s => s
  | .int n => intToChars n
  | .bool true => trueChars
  | .bool false => falseChars
  | .null => nullChars

/-- `json.encoder.py_encode_basestring` with `ensure_ascii=False`: escape
backslash, double quote, and control characters below 0x20 (with the
short escapes for backspace, form feed, newline, carriage return, tab,
and `\\u00xx` for the rest); all other characters pass through. -/
def escChar (c : Char) : List Char :=
  if c = '\\' then ['\\', '\\']
  else if c = '\x22' then ['\\', '\x22']
  else if c = '\x08' then ['\\', 'b']
  else if c = '\x0c' then ['\\', 'f']
  else if c = '\n' then ['\\', 'n']
  else if c = '\x0d' then ['\\', 'r']
  else if c = '\t' then ['\\', 't']
  else if c.toNat < 32 then
    ['\\', 'u', '0', '0', hexChar (c.toNat / 16), hexChar (c.toNat % 16)]
  else [c]

/-- Escape every character of a string body. -/
def escList : List Char → List Char
  | [] => []
  | c :: cs => escChar c ++ escList cs

/-- A JSON string literal: quote, escaped body, quote. -/
def encStr (s : List Char) : List Char :=
  '\x22' :: escList s ++ ['\x22']

/-- The newline-plus-indentation separator `json.dump` emits with
`indent=ind` at nesting depth `d`. -/
def nlPad (ind d : Nat) : List Char :=
  '\n' :: List.replicate (ind * d) ' '

mutual

/-- `json.dump(v, f, ensure_ascii=False, indent=ind)` at nesting depth
`d`: literals and numbers verbatim; non-empty arrays and objects put
every item on its own line indented one level deeper, separate items
with `,` and keys from values with `: `, and close on a fresh line at
the current level; empty containers print as `[]` / `{}`. -/
def encVal (ind d : Nat) : PyVal → List Char
  | .null => nullChars
  | .bool true => trueChars
  | .bool false => falseChars
  | .int n => intToChars n
  | .str s => encStr s
  | .list [] => ['[', ']']
  | .list (x :: xs) =>
    '[' :: (nlPad ind (d + 1) ++ encVal ind (d + 1) x ++
      encListRest ind (d + 1) xs ++ nlPad ind d ++ [']'])
  | .dict [] => ['\x7b', '\x7d']
  | .dict ((k, v) :: kvs) =>
    '\x7b' :: (nlPad ind (d + 1) ++ encStr (keyToChars k) ++ ':' :: ' ' ::
      encVal ind (d + 1) v ++ encDictRest ind (d + 1) kvs ++ nlPad ind d ++ ['\x7d'])

/-- The remaining array items, each preceded by `,` and a fresh indented
line. -/
def encListRest (ind d : Nat) : List PyVal → List Char
  | [] => []
  | x :: xs => ',' :: (nlPad ind d ++ encVal ind d x ++ encListRest ind d xs)

/-- The remaining object entries, each preceded by `,` and a fresh
indented line. -/
def encDictRest (ind d : Nat) : List (PyKey × PyVal) → List Char
  | [] => []
  | (k, v) :: kvs =>
    ',' :: (nlPad ind d ++ encStr (keyToChars k) ++ ':' :: ' ' ::
      encVal ind d v ++ encDictRest ind d kvs)

end

/-- The serialised form `json.dump` writes for `v`. -/
def dumps (indent : Nat) (v : PyVal) : List Char := encVal indent 0 v

/-- JSON whitespace (`json.decoder.WHITESPACE`). -/
def isWs (c : Char) : Bool :=
  c = ' ' || c = '\t' || c = '\n' || c = '\x0d'

/-- Drop leading JSON whitespace. -/
def skipWs : List Char → List Char
  | [] => []
  | c :: cs => if isWs c then skipWs cs else c :: cs

/-- Hexadecimal digit value, upper or lower case. -/
def parseHex (c : Char) : Option Nat :=
  if '0' ≤ c ∧ c ≤ '9' then some (c.toNat - 48)
  else if 'a' ≤ c ∧ c ≤ 'f' then some (c.toNat - 87)
  else if 'A' ≤ c ∧ c ≤ 'F' then some (c.toNat - 55)
  else none

/-- JSON string-body scanner (`json.decoder.py_scanstring`), fuelled by
one unit per produced character: consume characters after the opening
quote up to the closing quote, decoding the standard backslash escapes
and 4-digit `\\u` escapes (below the surrogate range, which is all the
fragment's encoder emits). -/
def parseStrBody : Nat → List Char → Option (List Char × List Char)
  | 0, _ => none
  | _ + 1, [] => none
  | fuel + 1, c :: cs =>
    if c = '\x22' then some ([], cs)
    else if c = '\\' then
      match cs with
      | [] => none
      | e :: cs2 =>
        if e = '\x22' then (parseStrBody fuel cs2).map (fun p => ('\x22' :: p.1, p.2))
        else if e = '\\' then (parseStrBody fuel cs2).map (fun p => ('\\' :: p.1, p.2))
        else if e = '/' then (parseStrBody fuel cs2).map (fun p => ('/' :: p.1, p.2))
        else if e = 'b' then (parseStrBody fuel cs2).map (fun p => ('\x08' :: p.1, p.2))
        else if e = 'f' then (parseStrBody fuel cs2).map (fun p => ('\x0c' :: p.1, p.2))
        else if e = 'n' then (parseStrBody fuel cs2).map (fun p => ('\n' :: p.1, p.2))
        else if e = 'r' then (parseStrBody fuel cs2).map (fun p => ('\x0d' :: p.1, p.2))
        else if e = 't' then (parseStrBody fuel cs2).map (fun p => ('\t' :: p.1, p.2))
        else if e = 'u' then
          match cs2 with
          | h1 :: h2 :: h3 :: h4 :: cs3 =>
            match parseHex h1, parseHex h2, parseHex h3, parseHex h4 with
            | some a, some b, some c2, some d2 =>
              (parseStrBody fuel cs3).map
                (fun p => (Char.ofNat ((((a * 16 + b) * 16 + c2) * 16 + d2)) :: p.1, p.2))
            | _, _, _, _ => none
          | _ => none
        else none
    else (parseStrBody fuel cs).map (fun p => (c :: p.1, p.2))

/-- Maximal leading run of decimal digits, as a number. -/
def parseNatChars (s : List Char) : Option (Nat × List Char) :=
  let ds := s.takeWhile Char.isDigit
  if ds = [] then none
  else some (ds.foldl (fun a c => a * 10 + (c.toNat - 48)) 0, s.dropWhile Char.isDigit)

/-- An optionally negated integer numeral (the fragment of the JSON
number grammar the encoder emits). -/
def parseIntChars (s : List Char) : Option (Int × List Char) :=
  match s with
  | [] => none
  | c :: s2 =>
    if c = '-' then
      match parseNatChars s2 with
      | some (n, r) => some (-(n : Int), r)
      | none => none
    else
      match parseNatChars (c :: s2) with
      | some (n, r) => some ((n : Int), r)
      | none => none

/-- Python `dict` insertion: an existing key keeps its position and gets
the new value; a new key is appended. -/
def insertKV (kvs : List (PyKey × PyVal)) (k : PyKey) (v : PyVal) :
    List (PyKey × PyVal) :=
  match kvs with
  | [] => [(k, v)]
  | (k1, v1) :: rest =>
    if k1 = k then (k1, v) :: rest else (k1, v1) :: insertKV rest k v

mutual

/-- One JSON value (`json.decoder.JSONDecoder.raw_decode`'s scanner),
fuelled by one unit per nesting or item step: skip whitespace, then
dispatch on the first character: object, array, string, the three
literals, else an integer numeral. -/
def parseVal : Nat → List Char → Option (PyVal × List Char)
  | 0, _ => none
  | fuel + 1, s =>
    match skipWs s with
    | [] => none
    | c :: cs =>
      if c = '\x7b' then
        match skipWs cs with
        | c1 :: t1 =>
          if c1 = '\x7d' then some (.dict [], t1)
          else if c1 = '\x22' then
            match parseStrBody (t1.length + 1) t1 with
            | some (k, r1) =>
              match skipWs r1 with
              | ':' :: r2 =>
                match parseVal fuel r2 with
                | some (v, r3) => parseMembersRest fuel [(PyKey.str k, v)] r3
                | none => none
              | _ => none
            | none => none
          else none
        | [] => none
      else if c = '[' then
        match skipWs cs with
        | c1 :: _ =>
          if c1 = ']' then some (.list [], (skipWs cs).tail)
          else
            match parseVal fuel cs with
            | some (v, r1) => parseItemsRest fuel [v] r1
            | none => none
        | [] => none
      else if c = '\x22' then
        match parseStrBody (cs.length + 1) cs with
        | some (s1, r1) => some (.str s1, r1)
        | none => none
      else if c = 't' then
        match cs with
        | 'r' :: 'u' :: 'e' :: r => some (.bool true, r)
        | _ => none
      else if c = 'f' then
        match cs with
        | 'a' :: 'l' :: 's' :: 'e' :: r => some (.bool false, r)
        | _ => none
      else if c = 'n' then
        match cs with
        | 'u' :: 'l' :: 'l' :: r => some (.null, r)
        | _ => none
      else
        match parseIntChars (c :: cs) with
        | some (n, r) => some (.int n, r)
        | none => none

/-- The array items after the first: `,` and a value, repeated, then `]`. -/
def parseItemsRest : Nat → List PyVal → List Char → Option (PyVal × List Char)
  | 0, _, _ => none
  | fuel + 1, acc, s =>
    match skipWs s with
    | c :: r =>
      if c = ']' then some (.list acc, r)
      else if c = ',' then
        match parseVal fuel r with
        | some (v, r2) => parseItemsRest fuel (acc ++ [v]) r2
        | none => none
      else none
    | [] => none

/-- The object entries after the first: `,`, a string key, `:` and a
value, repeated, then `}`; entries land in the dict by insertion. -/
def parseMembersRest : Nat → List (PyKey × PyVal) → List Char →
    Option (PyVal × List Char)
  | 0, _, _ => none
  | fuel + 1, acc, s =>
    match skipWs s with
    | c :: r =>
      if c = '\x7d' then some (.dict acc, r)
      else if c = ',' then
        match skipWs r with
        | c1 :: r1 =>
          if c1 = '\x22' then
            match parseStrBody (r1.length + 1) r1 with
            | some (k, r2) =>
              match skipWs r2 with
              | ':' :: r3 =>
                match parseVal fuel r3 with
                | some (v, r4) => parseMembersRest fuel (insertKV acc (PyKey.str k) v) r4
                | none => none
              | _ => none
            | none => none
          else none
        | [] => none
      else none
    | [] => none

end

/-- `json.load`: parse one value and require only whitespace after it. -/
def loads (content : List Char) : Option PyVal :=
  match parseVal (content.length + 1) content with
  | some (v, r) => if skipWs r = [] then some v else Option.none
  | Option.none => Option.none

/-- The filesystem, as a map from paths to file contents. -/
def FS : Type := String → Option (List Char)

/-- `save_json(data, filepath, indent)` (lines 281–298): create parent
directories as needed, write `json.dump(data, f, ensure_ascii=False,
indent=indent)` to `filepath`, and return `True`; in this fragment the
encoder is total and file I/O succeeds, so the `except` branch that
returns `False` is unreachable. -/
def save_json (data : PyVal) (filepath : String) (indent : Nat) (fs : FS) :
    FS × Bool :=
  (fun p => if p = filepath then some (dumps indent data) else fs p, true)

/-- `load_json(filepath, default)` (lines 300–309): return the parsed
contents of `filepath`, or `default` if the file does not exist
(`FileNotFoundError`) or does not parse (`json.JSONDecodeError`). -/
def load_json (filepath : String) (default : PyVal) (fs : FS) : PyVal :=
  match fs filepath with
  | Option.none => default
  | some content =>
    match loads content with
    | some v => v
    | Option.none => default

/-- `k` does not occur among the keys of `kvs`. -/
def keyFresh (k : PyKey) : List (PyKey × PyVal) → Bool
  | [] => true
  | (k1, _) :: rest => if k1 = k then false else keyFresh k rest

mutual

/-- Values representing a Python mapping/value whose dict keys are
strings, pairwise distinct at each level (as the keys of an actual
Python `dict` are). -/
def goodVal : PyVal → Bool
  | .null => true
  | .bool _ => true
  | .int _ => true
  | .str _ => true
  | .list xs => goodList xs
  | .dict kvs => goodKVs kvs

def goodList : List PyVal → Bool
  | [] => true
  | x :: xs => goodVal x && goodList xs

def goodKVs : List (PyKey × PyVal) → Bool
  | [] => true
  | (k, v) :: rest =>
    (match k with | .str _ => true | _ => false) && keyFresh k rest &&
      goodVal v && goodKVs rest

end

mutual

/-- Node-count measure of a value, used as parser fuel. -/
def vsize : PyVal → Nat
  | .null => 1
  | .bool _ => 1
  | .int _ => 1
  | .str _ => 1
  | .list xs => 1 + isize xs
  | .dict kvs => 1 + msize kvs

def isize : List PyVal → Nat
  | [] => 1
  | x :: xs => 1 + vsize x + isize xs

def msize : List (PyKey × PyVal) → Nat
  | [] => 1
  | (_, v) :: kvs => 1 + vsize v + msize kvs

end

/-! ### Scanner helper lemmas -/

/-- The continuation after a printed value never starts with a digit
(so numeral parsing stops exactly at the value boundary). -/
def noDigitHead : List Char → Prop
  | [] => True
  | c :: _ => c.isDigit = false

lemma skipWs_cons_not (c : Char) (s : List Char) (h : isWs c = false) :
    skipWs (c :: s) = c :: s := by
  simp [skipWs, h]

lemma skipWs_append_ws (w s : List Char) (hw : ∀ c ∈ w, isWs c = true) :
    skipWs (w ++ s) = skipWs s := by
  induction w with
  | nil => rfl
  | cons c cs ih =>
    have hc : isWs c = true := hw c (by simp)
    simp only [List.cons_append, skipWs, hc, if_pos]
    exact ih (fun a ha => hw a (by simp [ha]))

lemma nlPad_ws (ind d : Nat) : ∀ c ∈ nlPad ind d, isWs c = true := by
  intro c hc
  rw [nlPad] at hc
  rcases List.mem_cons.mp hc with h | h
  · subst h; decide
  · rw [List.eq_of_mem_replicate h]; decide

lemma isWs_not_digit (c : Char) (h : isWs c = true) : c.isDigit = false := by
  simp only [isWs, Bool.or_eq_true, decide_eq_true_eq] at h
  rcases h with ((h | h) | h) | h <;> subst h <;> decide

lemma digitChar_isDigit (d : Nat) (h : d < 10) : (digitChar d).isDigit = true := by
  interval_cases d <;> decide

lemma digitChar_val (d : Nat) (h : d < 10) : (digitChar d).toNat - 48 = d := by
  interval_cases d <;> decide

lemma parseHex_hexChar (d : Nat) (h : d < 16) : parseHex (hexChar d) = some d := by
  interval_cases d <;> decide

/-! ### Numeral round-trip -/

lemma natToChars_ne_nil (n : Nat) : natToChars n ≠ [] := by
  rw [natToChars]
  split_ifs with h
  · simp
  · simp [Nat.digits_ne_nil_iff_ne_zero.mpr h]

lemma natToChars_digits (n : Nat) : ∀ c ∈ natToChars n, c.isDigit = true := by
  intro c hc
  rw [natToChars] at hc
  split_ifs at hc with h
  · rcases List.mem_singleton.mp hc with rfl; decide
  · rw [List.mem_reverse, List.mem_map] at hc
    obtain ⟨d, hd, rfl⟩ := hc
    exact digitChar_isDigit d (Nat.digits_lt_base (by norm_num) hd)

lemma takeWhile_append_all (p : Char → Bool) (A B : List Char)
    (hA : ∀ a ∈ A, p a = true) :
    (A ++ B).takeWhile p = A ++ B.takeWhile p := by
  induction A with
  | nil => rfl
  | cons a A ih =>
    simp only [List.cons_append, List.takeWhile_cons, hA a (by simp), if_pos]
    rw [ih (fun x hx => hA x (by simp [hx]))]

lemma dropWhile_append_all (p : Char → Bool) (A B : List Char)
    (hA : ∀ a ∈ A, p a = true) :
    (A ++ B).dropWhile p = B.dropWhile p := by
  induction A with
  | nil => rfl
  | cons a A ih =>
    simp only [List.cons_append, List.dropWhile_cons, hA a (by simp), if_pos]
    exact ih (fun x hx => hA x (by simp [hx]))

lemma takeWhile_digit_stop (B : List Char) (h : noDigitHead B) :
    B.takeWhile Char.isDigit = [] ∧ B.dropWhile Char.isDigit = B := by
  cases B with
  | nil => exact ⟨rfl, rfl⟩
  | cons c t =>
    rw [noDigitHead] at h
    exact ⟨by simp [List.takeWhile_cons, h], by simp [List.dropWhile_cons, h]⟩

lemma foldl_digitChars (L : List Nat) (hL : ∀ d ∈ L, d < 10) :
    ∀ acc : Nat,
      ((L.map digitChar).reverse).foldl (fun a c => a * 10 + (c.toNat - 48)) acc =
        acc * 10 ^ L.length + Nat.ofDigits 10 L := by
  induction L with
  | nil => intro acc; simp
  | cons d M ih =>
    intro acc
    simp only [List.map_cons, List.reverse_cons, List.foldl_append, List.foldl_cons,
      List.foldl_nil]
    rw [ih (fun x hx => hL x (by simp [hx])) acc, digitChar_val d (hL d (by simp)),
      Nat.ofDigits_cons, List.length_cons]
    ring

lemma parseNat_natToChars (n : Nat) (rest : List Char) (h : noDigitHead rest) :
    parseNatChars (natToChars n ++ rest) = some (n, rest) := by
  obtain ⟨htake, hdrop⟩ := takeWhile_digit_stop rest h
  rw [parseNatChars]
  simp only [takeWhile_append_all Char.isDigit _ _ (natToChars_digits n), htake,
    dropWhile_append_all Char.isDigit _ _ (natToChars_digits n), hdrop,
    List.append_nil]
  rw [if_neg (natToChars_ne_nil n)]
  congr 1
  rw [natToChars]
  split_ifs with h0
  · subst h0; rfl
  · rw [foldl_digitChars (Nat.digits 10 n) (fun d hd => Nat.digits_lt_base (by norm_num) hd) 0,
      Nat.ofDigits_digits]
    simp

lemma parseInt_intToChars (n : Int) (rest : List Char) (h : noDigitHead rest) :
    parseIntChars (intToChars n ++ rest) = some (n, rest) := by
  cases n with
  | ofNat m =>
    obtain ⟨c, t, hct⟩ : ∃ c t, natToChars m = c :: t := by
      cases hnm : natToChars m with
      | nil => exact absurd hnm (natToChars_ne_nil m)
      | cons c t => exact ⟨c, t, rfl⟩
    have hcd : c.isDigit = true := natToChars_digits m c (by rw [hct]; simp)
    have hcne : c ≠ '-' := by
      intro hc; subst hc; exact absurd hcd (by decide)
    have hnat := parseNat_natToChars m rest h
    rw [show intToChars (Int.ofNat m) = natToChars m from rfl, hct]
    rw [hct, List.cons_append] at hnat
    simp only [List.cons_append, parseIntChars, if_neg hcne, hnat]
    rfl
  | negSucc m =>
    have hnat := parseNat_natToChars (m + 1) rest h
    simp only [intToChars, List.cons_append, parseIntChars, if_pos rfl, hnat,
      Option.some.injEq, Prod.mk.injEq, and_true]
    rw [Int.negSucc_eq]
    push_cast
    ring_nf

lemma escChar_length_pos (c : Char) : 1 ≤ (escChar c).length := by
  rw [escChar]; split_ifs <;> simp

lemma escList_length (s : List Char) : s.length ≤ (escList s).length := by
  induction s with
  | nil => simp [escList]
  | cons c cs ih =>
    rw [escList, List.length_append, List.length_cons]
    have := escChar_length_pos c
    omega

lemma parseStrBody_escList (s : List Char) :
    ∀ fuel r, s.length < fuel →
      parseStrBody fuel (escList s ++ '\x22' :: r) = some (s, r) := by
  induction s with
  | nil =>
    intro fuel r hf
    obtain ⟨f, rfl⟩ : ∃ f, fuel = f + 1 := ⟨fuel - 1, by omega⟩
    rw [escList, List.nil_append]
    simp [parseStrBody]
  | cons c cs ih =>
    intro fuel r hf
    obtain ⟨f, rfl⟩ : ∃ f, fuel = f + 1 := ⟨fuel - 1, by omega⟩
    have ihf := ih f r (by simp only [List.length_cons] at hf; omega)
    rw [escList, List.append_assoc, escChar]
    split_ifs with h1 h2 h3 h4 h5 h6 h7 h8
    · subst h1; simp [parseStrBody, ihf]
    · subst h2; simp [parseStrBody, ihf]
    · subst h3; simp [parseStrBody, ihf]
    · subst h4; simp [parseStrBody, ihf]
    · subst h5; simp [parseStrBody, ihf]
    · subst h6; simp [parseStrBody, ihf]
    · subst h7; simp [parseStrBody, ihf]
    · have hdiv : c.toNat / 16 < 16 := by omega
      have hmod : c.toNat % 16 < 16 := by omega
      have h0 : parseHex '0' = some 0 := by decide
      simp only [List.cons_append, List.nil_append, parseStrBody]
      simp [h0, parseHex_hexChar _ hdiv, parseHex_hexChar _ hmod, ihf]
      have hval : c.toNat / 16 * 16 + c.toNat % 16 = c.toNat := by omega
      rw [hval, Char.ofNat_toNat]
    · simp [parseStrBody, if_neg h1, if_neg h2, ihf]

/-! ### Dict-insertion and freshness lemmas -/

lemma insertKV_fresh (acc : List (PyKey × PyVal)) (k : PyKey) (v : PyVal)
    (h : keyFresh k acc = true) : insertKV acc k v = acc ++ [(k, v)] := by
  induction acc with
  | nil => rfl
  | cons p rest ih =>
    obtain ⟨k1, v1⟩ := p
    rw [keyFresh] at h
    split_ifs at h with hk
    rw [insertKV, if_neg hk, List.cons_append, ih h]

lemma keyFresh_append (k : PyKey) (A B : List (PyKey × PyVal)) :
    keyFresh k (A ++ B) = (keyFresh k A && keyFresh k B) := by
  induction A with
  | nil => simp [keyFresh]
  | cons p rest ih =>
    obtain ⟨k1, v1⟩ := p
    rw [List.cons_append, keyFresh, keyFresh]
    split_ifs with hk
    · simp
    · exact ih

lemma keyFresh_mem (k : PyKey) (L : List (PyKey × PyVal)) (h : keyFresh k L = true)
    (p : PyKey × PyVal) (hp : p ∈ L) : p.1 ≠ k := by
  induction L with
  | nil => simp at hp
  | cons q rest ih =>
    obtain ⟨k1, v1⟩ := q
    rw [keyFresh] at h
    split_ifs at h with hk
    rcases List.mem_cons.mp hp with rfl | hp2
    · exact hk
    · exact ih h hp2

/-! ### Head-character facts -/

lemma digit_ne (c : Char) (h : c.isDigit = true) (d : Char) (hd : d.isDigit = false) :
    c ≠ d := by
  intro h2
  rw [h2, hd] at h
  exact absurd h (by simp)

lemma digit_not_ws (c : Char) (h : c.isDigit = true) : isWs c = false := by
  cases hw : isWs c
  · rfl
  · exfalso
    simp only [isWs, Bool.or_eq_true, decide_eq_true_eq] at hw
    rcases hw with ((rfl | rfl) | rfl) | rfl <;> exact absurd h (by decide)

lemma digit_head_facts (c : Char) (h : c.isDigit = true) :
    isWs c = false ∧ c ≠ '\x7b' ∧ c ≠ '[' ∧ c ≠ '\x22' ∧ c ≠ 't' ∧ c ≠ 'f' ∧
      c ≠ 'n' ∧ c ≠ ']' ∧ c ≠ '-' :=
  ⟨digit_not_ws c h, digit_ne c h _ (by decide), digit_ne c h _ (by decide),
    digit_ne c h _ (by decide), digit_ne c h _ (by decide), digit_ne c h _ (by decide),
    digit_ne c h _ (by decide), digit_ne c h _ (by decide), digit_ne c h _ (by decide)⟩

/-- Every printed value starts with a non-whitespace character other than
`]` (so array parsing can see whether the array is empty). -/
lemma encVal_head (ind d : Nat) (v : PyVal) :
    ∃ c t, encVal ind d v = c :: t ∧ isWs c = false ∧ c ≠ ']' := by
  cases v with
  | null => exact ⟨'n', _, rfl, by decide, by decide⟩
  | bool b =>
    cases b
    · exact ⟨'f', _, rfl, by decide, by decide⟩
    · exact ⟨'t', _, rfl, by decide, by decide⟩
  | int n =>
    cases n with
    | ofNat m =>
      obtain ⟨c, t, hct⟩ : ∃ c t, natToChars m = c :: t := by
        cases hnm : natToChars m with
        | nil => exact absurd hnm (natToChars_ne_nil m)
        | cons c t => exact ⟨c, t, rfl⟩
      have hcd : c.isDigit = true := natToChars_digits m c (by rw [hct]; simp)
      obtain ⟨hw, _, _, _, _, _, _, hne, _⟩ := digit_head_facts c hcd
      exact ⟨c, t, by rw [show encVal ind d (.int (Int.ofNat m)) = natToChars m from rfl, hct],
        hw, hne⟩
    | negSucc m =>
      exact ⟨'-', _, rfl, by decide, by decide⟩
  | str s => exact ⟨'\x22', _, rfl, by decide, by decide⟩
  | list xs =>
    cases xs
    · exact ⟨'[', _, rfl, by decide, by decide⟩
    · exact ⟨'[', _, rfl, by decide, by decide⟩
  | dict kvs =>
    rcases kvs with _ | ⟨⟨k, v⟩, kvs⟩
    · exact ⟨'\x7b', _, rfl, by decide, by decide⟩
    · exact ⟨'\x7b', _, rfl, by decide, by decide⟩

/-- Parsing ignores leading whitespace. -/
lemma parseVal_ws (fuel : Nat) (w s : List Char) (hw : ∀ c ∈ w, isWs c = true) :
    parseVal fuel (w ++ s) = parseVal fuel s := by
  cases fuel with
  | zero => rfl
  | succ f => simp only [parseVal, skipWs_append_ws w s hw]

/-! ### Size bounds: the input length bounds the node count -/

lemma vsize_pos (v : PyVal) : 1 ≤ vsize v := by
  cases v <;> simp [vsize]

lemma isize_pos (xs : List PyVal) : 1 ≤ isize xs := by
  cases xs with
  | nil => simp [isize]
  | cons x xs => simp only [isize]; omega

lemma msize_pos (kvs : List (PyKey × PyVal)) : 1 ≤ msize kvs := by
  rcases kvs with _ | ⟨⟨k, v⟩, kvs⟩
  · simp [msize]
  · simp only [msize]; omega

mutual

theorem vsize_le_enc : ∀ (ind d : Nat) (v : PyVal),
    vsize v ≤ (encVal ind d v).length + 1
  | _, _, .null => by simp [vsize, encVal]
  | _, _, .bool b => by cases b <;> simp [vsize, encVal]
  | _, _, .int n => by simp [vsize]
  | _, _, .str s => by simp [vsize]
  | ind, d, .list [] => by simp [vsize, isize, encVal]
  | ind, d, .list (x :: xs) => by
    have hx := vsize_le_enc ind (d + 1) x
    have hxs := isize_le_enc ind (d + 1) xs
    simp only [vsize, isize, encVal, List.length_cons, List.length_append, nlPad,
      List.length_replicate]
    omega
  | ind, d, .dict [] => by simp [vsize, msize, encVal]
  | ind, d, .dict ((k, v) :: kvs) => by
    have hv := vsize_le_enc ind (d + 1) v
    have hkvs := msize_le_enc ind (d + 1) kvs
    simp only [vsize, msize, encVal, List.length_cons, List.length_append, nlPad,
      List.length_replicate, encStr]
    omega

theorem isize_le_enc : ∀ (ind d : Nat) (xs : List PyVal),
    isize xs ≤ (encListRest ind d xs).length + 1
  | _, _, [] => by simp [isize, encListRest]
  | ind, d, x :: xs => by
    have hx := vsize_le_enc ind d x
    have hxs := isize_le_enc ind d xs
    simp only [isize, encListRest, List.length_cons, List.length_append, nlPad,
      List.length_replicate]
    omega

theorem msize_le_enc : ∀ (ind d : Nat) (kvs : List (PyKey × PyVal)),
    msize kvs ≤ (encDictRest ind d kvs).length + 1
  | _, _, [] => by simp [msize, encDictRest]
  | ind, d, (k, v) :: kvs => by
    have hv := vsize_le_enc ind d v
    have hkvs := msize_le_enc ind d kvs
    simp only [msize, encDictRest, List.length_cons, List.length_append, nlPad,
      List.length_replicate, encStr]
    omega

end

/-! ### Heads of printed continuations are never digits -/

lemma noDigitHead_ws_close (w : List Char) (X : Char) (rest : List Char)
    (hw : ∀ c ∈ w, isWs c = true) (hX : X.isDigit = false) :
    noDigitHead (w ++ X :: rest) := by
  cases w with
  | nil => exact hX
  | cons c t => exact isWs_not_digit c (hw c (by simp))

lemma noDigitHead_encListRest (ind d : Nat) (xs : List PyVal) (w : List Char)
    (X : Char) (rest : List Char) (hw : ∀ c ∈ w, isWs c = true)
    (hX : X.isDigit = false) :
    noDigitHead (encListRest ind d xs ++ w ++ X :: rest) := by
  cases xs with
  | nil =>
    rw [show encListRest ind d [] = [] from rfl, List.nil_append]
    exact noDigitHead_ws_close w X rest hw hX
  | cons x xs => exact (by decide : (',').isDigit = false)

lemma noDigitHead_encDictRest (ind d : Nat) (kvs : List (PyKey × PyVal)) (w : List Char)
    (X : Char) (rest : List Char) (hw : ∀ c ∈ w, isWs c = true)
    (hX : X.isDigit = false) :
    noDigitHead (encDictRest ind d kvs ++ w ++ X :: rest) := by
  rcases kvs with _ | ⟨⟨k, v⟩, kvs⟩
  · rw [show encDictRest ind d [] = [] from rfl, List.nil_append]
    exact noDigitHead_ws_close w X rest hw hX
  · exact (by decide : (',').isDigit = false)

lemma intToChars_head_facts (n : Int) :
    ∃ c t, intToChars n = c :: t ∧ isWs c = false ∧ c ≠ '\x7b' ∧ c ≠ '[' ∧
      c ≠ '\x22' ∧ c ≠ 't' ∧ c ≠ 'f' ∧ c ≠ 'n' := by
  cases n with
  | ofNat m =>
    obtain ⟨c, t, hct⟩ : ∃ c t, natToChars m = c :: t := by
      cases hnm : natToChars m with
      | nil => exact absurd hnm (natToChars_ne_nil m)
      | cons c t => exact ⟨c, t, rfl⟩
    have hcd : c.isDigit = true := natToChars_digits m c (by rw [hct]; simp)
    obtain ⟨hw, h1, h2, h3, h4, h5, h6, _, _⟩ := digit_head_facts c hcd
    exact ⟨c, t, hct, hw, h1, h2, h3, h4, h5, h6⟩
  | negSucc m =>
    exact ⟨'-', natToChars (m + 1), rfl, by decide, by decide, by decide, by decide,
      by decide, by decide, by decide⟩

/-- Parsing inverts printing: on any printed value (at any indentation
and depth) followed by a continuation that does not start with a digit,
the decoder returns exactly the printed value and the continuation, given
enough fuel; similarly for printed item/member tails of arrays and
objects. -/
theorem parse_enc_main : ∀ fuel : Nat,
    (∀ ind d (v : PyVal) (rest : List Char), goodVal v = true → vsize v ≤ fuel →
      noDigitHead rest → parseVal fuel (encVal ind d v ++ rest) = some (v, rest)) ∧
    (∀ ind d (xs acc : List PyVal) (w rest : List Char),
      goodList xs = true → isize xs ≤ fuel → (∀ c ∈ w, isWs c = true) →
      parseItemsRest fuel acc (encListRest ind d xs ++ (w ++ ']' :: rest)) =
        some (.list (acc ++ xs), rest)) ∧
    (∀ ind d (kvs acc : List (PyKey × PyVal)) (w rest : List Char),
      goodKVs kvs = true → msize kvs ≤ fuel → (∀ c ∈ w, isWs c = true) →
      (∀ p ∈ kvs, keyFresh p.1 acc = true) →
      parseMembersRest fuel acc (encDictRest ind d kvs ++ (w ++ '\x7d' :: rest)) =
        some (.dict (acc ++ kvs), rest)) := by
  intro fuel
  induction fuel with
  | zero =>
    refine ⟨?_, ?_, ?_⟩
    · intro ind d v rest _ hs _
      exact absurd hs (by have := vsize_pos v; omega)
    · intro ind d xs acc w rest _ hs _
      exact absurd hs (by have := isize_pos xs; omega)
    · intro ind d kvs acc w rest _ hs _ _
      exact absurd hs (by have := msize_pos kvs; omega)
  | succ f ih =>
    obtain ⟨ihV, ihI, ihM⟩ := ih
    refine ⟨?_, ?_, ?_⟩
    · -- values
      intro ind d v rest hg hs hnd
      cases v with
      | null => simp [encVal, parseVal, skipWs, isWs, nullChars, trueChars, falseChars]
      | bool b => cases b <;> simp [encVal, parseVal, skipWs, isWs, nullChars, trueChars, falseChars]
      | int n =>
        obtain ⟨c, t, hct, hws, h1, h2, h3, h4, h5, h6⟩ := intToChars_head_facts n
        have henc : encVal ind d (.int n) ++ rest = c :: (t ++ rest) := by
          rw [show encVal ind d (.int n) = intToChars n from rfl, hct, List.cons_append]
        have hint : parseIntChars (c :: (t ++ rest)) = some (n, rest) := by
          rw [← List.cons_append, ← hct]
          exact parseInt_intToChars n rest hnd
        rw [henc]
        simp only [parseVal]
        rw [skipWs_cons_not _ _ hws]
        simp [if_neg h1, if_neg h2, if_neg h3, if_neg h4, if_neg h5, if_neg h6, hint]
      | str s =>
        have henc : encVal ind d (.str s) ++ rest = '\x22' :: (escList s ++ '\x22' :: rest) := by
          simp [encVal, encStr]
        have hstr : parseStrBody ((escList s ++ '\x22' :: rest).length + 1)
            (escList s ++ '\x22' :: rest) = some (s, rest) := by
          have := escList_length s
          exact parseStrBody_escList s _ rest
            (by simp only [List.length_append, List.length_cons]; omega)
        rw [henc]
        simp only [parseVal]
        rw [skipWs_cons_not _ _ (by decide)]
        simp [hstr, -List.length_append, -List.length_cons]
      | list xs =>
        cases xs with
        | nil =>
          have henc : encVal ind d (.list []) ++ rest = '[' :: (']' :: rest) := by
            simp [encVal]
          rw [henc]
          simp [parseVal, skipWs, isWs]
        | cons x xs =>
          have hgx : goodVal x = true := by
            have := hg
            simp only [goodVal, goodList, Bool.and_eq_true] at this
            exact this.1
          have hgxs : goodList xs = true := by
            have := hg
            simp only [goodVal, goodList, Bool.and_eq_true] at this
            exact this.2
          have hvx : vsize x ≤ f := by
            simp only [vsize, isize] at hs
            have := isize_pos xs
            omega
          have hixs : isize xs ≤ f := by
            simp only [vsize, isize] at hs
            have := vsize_pos x
            omega
          obtain ⟨cx, tx, hctx, hwx, hnex⟩ := encVal_head ind (d + 1) x
          have henc : encVal ind d (.list (x :: xs)) ++ rest =
              '[' :: (nlPad ind (d + 1) ++ (encVal ind (d + 1) x ++
                (encListRest ind (d + 1) xs ++ (nlPad ind d ++ (']' :: rest))))) := by
            simp [encVal, List.append_assoc]
          have hndC : noDigitHead (encListRest ind (d + 1) xs ++
              (nlPad ind d ++ (']' :: rest))) := by
            have := noDigitHead_encListRest ind (d + 1) xs (nlPad ind d) ']' rest
              (nlPad_ws ind d) (by decide)
            simpa [List.append_assoc] using this
          have hskipI : skipWs (nlPad ind (d + 1) ++ (encVal ind (d + 1) x ++
              (encListRest ind (d + 1) xs ++ (nlPad ind d ++ (']' :: rest))))) =
              cx :: (tx ++ (encListRest ind (d + 1) xs ++ (nlPad ind d ++ (']' :: rest)))) := by
            rw [skipWs_append_ws _ _ (nlPad_ws ind (d + 1)), hctx, List.cons_append,
              skipWs_cons_not _ _ hwx]
          have hpv : parseVal f (nlPad ind (d + 1) ++ (encVal ind (d + 1) x ++
              (encListRest ind (d + 1) xs ++ (nlPad ind d ++ (']' :: rest))))) =
              some (x, encListRest ind (d + 1) xs ++ (nlPad ind d ++ (']' :: rest))) := by
            rw [parseVal_ws f _ _ (nlPad_ws ind (d + 1))]
            exact ihV ind (d + 1) x _ hgx hvx hndC
          have hitems : parseItemsRest f [x] (encListRest ind (d + 1) xs ++
              (nlPad ind d ++ (']' :: rest))) = some (.list ([x] ++ xs), rest) :=
            ihI ind (d + 1) xs [x] (nlPad ind d) rest hgxs hixs (nlPad_ws ind d)
          rw [henc]
          simp only [parseVal]
          rw [skipWs_cons_not _ _ (by decide)]
          simp [hskipI, if_neg hnex, hpv, hitems]
      | dict kvs =>
        rcases kvs with _ | ⟨⟨k, v⟩, kvs⟩
        · have henc : encVal ind d (.dict []) ++ rest = '\x7b' :: ('\x7d' :: rest) := by
            simp [encVal]
          rw [henc]
          simp [parseVal, skipWs, isWs]
        · have hg' := hg
          simp only [goodVal, goodKVs, Bool.and_eq_true] at hg'
          obtain ⟨⟨⟨hk, hfresh⟩, hgv⟩, hgkvs⟩ := hg'
          obtain ⟨s0, rfl⟩ : ∃ s0, k = PyKey.str s0 := by
            cases k with
            | str s0 => exact ⟨s0, rfl⟩
            | int m => exact absurd hk (by simp)
            | bool b => exact absurd hk (by simp)
            | null => exact absurd hk (by simp)
          have hvv : vsize v ≤ f := by
            simp only [vsize, msize] at hs
            have := msize_pos kvs
            omega
          have hmkvs : msize kvs ≤ f := by
            simp only [vsize, msize] at hs
            have := vsize_pos v
            omega
          have hndC : noDigitHead (encDictRest ind (d + 1) kvs ++
              (nlPad ind d ++ ('\x7d' :: rest))) := by
            have := noDigitHead_encDictRest ind (d + 1) kvs (nlPad ind d) '\x7d' rest
              (nlPad_ws ind d) (by decide)
            simpa [List.append_assoc] using this
          have henc : encVal ind d (.dict ((PyKey.str s0, v) :: kvs)) ++ rest =
              '\x7b' :: (nlPad ind (d + 1) ++ ('\x22' :: (escList s0 ++ ('\x22' :: (':' ::
                (' ' :: (encVal ind (d + 1) v ++ (encDictRest ind (d + 1) kvs ++
                  (nlPad ind d ++ ('\x7d' :: rest)))))))))) := by
            simp [encVal, encStr, keyToChars, List.append_assoc]
          have hskipI : skipWs (nlPad ind (d + 1) ++ ('\x22' :: (escList s0 ++ ('\x22' :: (':' ::
              (' ' :: (encVal ind (d + 1) v ++ (encDictRest ind (d + 1) kvs ++
                (nlPad ind d ++ ('\x7d' :: rest)))))))))) =
              '\x22' :: (escList s0 ++ ('\x22' :: (':' ::
              (' ' :: (encVal ind (d + 1) v ++ (encDictRest ind (d + 1) kvs ++
                (nlPad ind d ++ ('\x7d' :: rest)))))))) := by
            rw [skipWs_append_ws _ _ (nlPad_ws ind (d + 1)), skipWs_cons_not _ _ (by decide)]
          have hkey : parseStrBody
              ((escList s0 ++ ('\x22' :: (':' :: (' ' :: (encVal ind (d + 1) v ++
                (encDictRest ind (d + 1) kvs ++ (nlPad ind d ++ ('\x7d' :: rest)))))))).length + 1)
              (escList s0 ++ ('\x22' :: (':' :: (' ' :: (encVal ind (d + 1) v ++
                (encDictRest ind (d + 1) kvs ++ (nlPad ind d ++ ('\x7d' :: rest)))))))) =
              some (s0, ':' :: (' ' :: (encVal ind (d + 1) v ++
                (encDictRest ind (d + 1) kvs ++ (nlPad ind d ++ ('\x7d' :: rest)))))) := by
            have := escList_length s0
            exact parseStrBody_escList s0 _ _ (by simp [List.length_append]; omega)
          have hpv : parseVal f (' ' :: (encVal ind (d + 1) v ++
              (encDictRest ind (d + 1) kvs ++ (nlPad ind d ++ ('\x7d' :: rest))))) =
              some (v, encDictRest ind (d + 1) kvs ++ (nlPad ind d ++ ('\x7d' :: rest))) := by
            rw [show (' ' :: (encVal ind (d + 1) v ++ (encDictRest ind (d + 1) kvs ++
              (nlPad ind d ++ ('\x7d' :: rest))))) = [' '] ++ (encVal ind (d + 1) v ++
              (encDictRest ind (d + 1) kvs ++ (nlPad ind d ++ ('\x7d' :: rest)))) from rfl]
            rw [parseVal_ws f _ _ (by intro c hc; simp at hc; subst hc; decide)]
            exact ihV ind (d + 1) v _ hgv hvv hndC
          have hfr : ∀ p ∈ kvs, keyFresh p.1 [(PyKey.str s0, v)] = true := by
            intro p hp
            have hne := keyFresh_mem (PyKey.str s0) kvs hfresh p hp
            rw [keyFresh, if_neg (fun h => hne h.symm)]
            rfl
          have hmem : parseMembersRest f [(PyKey.str s0, v)]
              (encDictRest ind (d + 1) kvs ++ (nlPad ind d ++ ('\x7d' :: rest))) =
              some (.dict ([(PyKey.str s0, v)] ++ kvs), rest) :=
            ihM ind (d + 1) kvs [(PyKey.str s0, v)] (nlPad ind d) rest hgkvs hmkvs
              (nlPad_ws ind d) hfr
          have hsk2 : skipWs (':' :: (' ' :: (encVal ind (d + 1) v ++
              (encDictRest ind (d + 1) kvs ++ (nlPad ind d ++ ('\x7d' :: rest)))))) =
              ':' :: (' ' :: (encVal ind (d + 1) v ++ (encDictRest ind (d + 1) kvs ++
                (nlPad ind d ++ ('\x7d' :: rest))))) := skipWs_cons_not _ _ (by decide)
          rw [henc]
          simp only [parseVal]
          rw [skipWs_cons_not _ _ (by decide)]
          simp [hskipI, hkey, hsk2, hpv, hmem, -List.length_append, -List.length_cons]
    · -- array item tails
      intro ind d xs acc w rest hg hs hw
      cases xs with
      | nil =>
        have hskip : skipWs (encListRest ind d [] ++ (w ++ ']' :: rest)) = ']' :: rest := by
          rw [show encListRest ind d [] = [] from rfl, List.nil_append,
            skipWs_append_ws _ _ hw, skipWs_cons_not _ _ (by decide)]
        simp only [parseItemsRest]
        rw [hskip]
        simp
      | cons x xs =>
        have hgx : goodVal x = true := by
          simp only [goodList, Bool.and_eq_true] at hg
          exact hg.1
        have hgxs : goodList xs = true := by
          simp only [goodList, Bool.and_eq_true] at hg
          exact hg.2
        have hvx : vsize x ≤ f := by
          simp only [isize] at hs
          have := isize_pos xs
          omega
        have hixs : isize xs ≤ f := by
          simp only [isize] at hs
          have := vsize_pos x
          omega
        have hndC : noDigitHead (encListRest ind d xs ++ (w ++ ']' :: rest)) := by
          have := noDigitHead_encListRest ind d xs w ']' rest hw (by decide)
          simpa [List.append_assoc] using this
        have henc : encListRest ind d (x :: xs) ++ (w ++ ']' :: rest) =
            ',' :: (nlPad ind d ++ (encVal ind d x ++
              (encListRest ind d xs ++ (w ++ ']' :: rest)))) := by
          simp [encListRest, List.append_assoc]
        have hpv : parseVal f (nlPad ind d ++ (encVal ind d x ++
            (encListRest ind d xs ++ (w ++ ']' :: rest)))) =
            some (x, encListRest ind d xs ++ (w ++ ']' :: rest)) := by
          rw [parseVal_ws f _ _ (nlPad_ws ind d)]
          exact ihV ind d x _ hgx hvx hndC
        have hitems : parseItemsRest f (acc ++ [x])
            (encListRest ind d xs ++ (w ++ ']' :: rest)) =
            some (.list ((acc ++ [x]) ++ xs), rest) :=
          ihI ind d xs (acc ++ [x]) w rest hgxs hixs hw
        rw [henc]
        simp only [parseItemsRest]
        rw [skipWs_cons_not _ _ (by decide)]
        simp [hpv, hitems]
    · -- object member tails
      intro ind d kvs acc w rest hg hs hw hfr
      rcases kvs with _ | ⟨⟨k, v⟩, kvs⟩
      · have hskip : skipWs (encDictRest ind d [] ++ (w ++ '\x7d' :: rest)) =
            '\x7d' :: rest := by
          rw [show encDictRest ind d [] = [] from rfl, List.nil_append,
            skipWs_append_ws _ _ hw, skipWs_cons_not _ _ (by decide)]
        simp only [parseMembersRest]
        rw [hskip]
        simp
      · have hg' := hg
        simp only [goodKVs, Bool.and_eq_true] at hg'
        obtain ⟨⟨⟨hk, hfresh⟩, hgv⟩, hgkvs⟩ := hg'
        obtain ⟨s0, rfl⟩ : ∃ s0, k = PyKey.str s0 := by
          cases k with
          | str s0 => exact ⟨s0, rfl⟩
          | int m => exact absurd hk (by simp)
          | bool b => exact absurd hk (by simp)
          | null => exact absurd hk (by simp)
        have hvv : vsize v ≤ f := by
          simp only [msize] at hs
          have := msize_pos kvs
          omega
        have hmkvs : msize kvs ≤ f := by
          simp only [msize] at hs
          have := vsize_pos v
          omega
        have hndC : noDigitHead (encDictRest ind d kvs ++ (w ++ '\x7d' :: rest)) := by
          have := noDigitHead_encDictRest ind d kvs w '\x7d' rest hw (by decide)
          simpa [List.append_assoc] using this
        have henc : encDictRest ind d ((PyKey.str s0, v) :: kvs) ++ (w ++ '\x7d' :: rest) =
            ',' :: (nlPad ind d ++ ('\x22' :: (escList s0 ++ ('\x22' :: (':' ::
              (' ' :: (encVal ind d v ++ (encDictRest ind d kvs ++
                (w ++ '\x7d' :: rest))))))))) := by
          simp [encDictRest, encStr, keyToChars, List.append_assoc]
        have hskipI : skipWs (nlPad ind d ++ ('\x22' :: (escList s0 ++ ('\x22' :: (':' ::
            (' ' :: (encVal ind d v ++ (encDictRest ind d kvs ++
              (w ++ '\x7d' :: rest))))))))) =
            '\x22' :: (escList s0 ++ ('\x22' :: (':' ::
            (' ' :: (encVal ind d v ++ (encDictRest ind d kvs ++
              (w ++ '\x7d' :: rest))))))) := by
          rw [skipWs_append_ws _ _ (nlPad_ws ind d), skipWs_cons_not _ _ (by decide)]
        have hkey : parseStrBody
            ((escList s0 ++ ('\x22' :: (':' :: (' ' :: (encVal ind d v ++
              (encDictRest ind d kvs ++ (w ++ '\x7d' :: rest))))))).length + 1)
            (escList s0 ++ ('\x22' :: (':' :: (' ' :: (encVal ind d v ++
              (encDictRest ind d kvs ++ (w ++ '\x7d' :: rest))))))) =
            some (s0, ':' :: (' ' :: (encVal ind d v ++
              (encDictRest ind d kvs ++ (w ++ '\x7d' :: rest))))) := by
          have := escList_length s0
          exact parseStrBody_escList s0 _ _ (by simp [List.length_append]; omega)
        have hpv : parseVal f (' ' :: (encVal ind d v ++
            (encDictRest ind d kvs ++ (w ++ '\x7d' :: rest)))) =
            some (v, encDictRest ind d kvs ++ (w ++ '\x7d' :: rest)) := by
          rw [show (' ' :: (encVal ind d v ++ (encDictRest ind d kvs ++
            (w ++ '\x7d' :: rest)))) = [' '] ++ (encVal ind d v ++
            (encDictRest ind d kvs ++ (w ++ '\x7d' :: rest))) from rfl]
          rw [parseVal_ws f _ _ (by intro c hc; simp at hc; subst hc; decide)]
          exact ihV ind d v _ hgv hvv hndC
        have hins : insertKV acc (PyKey.str s0) v = acc ++ [(PyKey.str s0, v)] :=
          insertKV_fresh acc (PyKey.str s0) v (hfr (PyKey.str s0, v) (by simp))
        have hfr2 : ∀ p ∈ kvs, keyFresh p.1 (acc ++ [(PyKey.str s0, v)]) = true := by
          intro p hp
          rw [keyFresh_append]
          have h1 : keyFresh p.1 acc = true := hfr p (by simp [hp])
          have hne := keyFresh_mem (PyKey.str s0) kvs hfresh p hp
          have h2 : keyFresh p.1 [(PyKey.str s0, v)] = true := by
            rw [keyFresh, if_neg (fun h => hne h.symm)]
            rfl
          rw [h1, h2]
          rfl
        have hmem : parseMembersRest f (acc ++ [(PyKey.str s0, v)])
            (encDictRest ind d kvs ++ (w ++ '\x7d' :: rest)) =
            some (.dict ((acc ++ [(PyKey.str s0, v)]) ++ kvs), rest) :=
          ihM ind d kvs (acc ++ [(PyKey.str s0, v)]) w rest hgkvs hmkvs hw hfr2
        have hsk2 : skipWs (':' :: (' ' :: (encVal ind d v ++
            (encDictRest ind d kvs ++ (w ++ '\x7d' :: rest))))) =
            ':' :: (' ' :: (encVal ind d v ++ (encDictRest ind d kvs ++
              (w ++ '\x7d' :: rest)))) := skipWs_cons_not _ _ (by decide)
        rw [henc]
        simp only [parseMembersRest]
        rw [skipWs_cons_not _ _ (by decide)]
        simp [hskipI, hkey, hsk2, hpv, hins, hmem, -List.length_append, -List.length_cons]

lemma loads_dumps (indent : Nat) (v : PyVal) (hv : goodVal v = true) :
    loads (dumps indent v) = some v := by
  have hp : parseVal ((encVal indent 0 v).length + 1) (encVal indent 0 v ++ []) =
      some (v, []) :=
    (parse_enc_main ((encVal indent 0 v).length + 1)).1 indent 0 v []
      hv (by have := vsize_le_enc indent 0 v; omega) trivial
  rw [List.append_nil] at hp
  rw [loads, dumps, hp]
  rfl

/-- **C9 counterexample.** The claim "saving any JSON-serialisable mapping
and loading it back yields an equal structure" fails: the mapping
`{True: "a"}` is JSON-serialisable, but `json.dump` coerces the
non-string key to the string `"true"`, so `load_json` after `save_json`
returns `{"true": "a"}`, which is not equal to the original mapping. -/
theorem save_json_load_json_not_inverse :
    load_json "data/prices.json" PyVal.null
      (save_json (PyVal.dict [(PyKey.bool true, PyVal.str ['a'])])
        "data/prices.json" 2 (fun _ => Option.none)).1 =
      PyVal.dict [(PyKey.str ['t', 'r', 'u', 'e'], PyVal.str ['a'])] ∧
    PyVal.dict [(PyKey.str ['t', 'r', 'u', 'e'], PyVal.str ['a'])] ≠
      PyVal.dict [(PyKey.bool true, PyVal.str ['a'])] := by
  constructor
  · rfl
  · simp

/-- **C9, amended.** For every JSON-serialisable mapping whose keys are
strings at every level (values built from `None`/`bool`/`int`/`str`/
`list`/`dict` with string keys — `goodVal`), saving it with `save_json`
to a path and then loading that path with `load_json` yields a structure
equal to the original mapping, whatever the indent, the default, and
the rest of the filesystem. -/
theorem save_json_load_json_roundtrip (v : PyVal) (hv : goodVal v = true)
    (filepath : String) (indent : Nat) (default : PyVal) (fs : FS) :
    load_json filepath default (save_json v filepath indent fs).1 = v := by
  rw [save_json, load_json]
  simp [loads_dumps indent v hv]

/-- Witness for amended C9: a string-keyed mapping round-trips through
`save_json` / `load_json` unchanged. -/
theorem save_json_load_json_roundtrip_witness :
    load_json "data/prices.json" PyVal.null
      (save_json (PyVal.dict [(PyKey.str ['b', 't', 'c'], PyVal.int 67000)])
        "data/prices.json" 2 (fun _ => Option.none)).1 =
      PyVal.dict [(PyKey.str ['b', 't', 'c'], PyVal.int 67000)] :=
  save_json_load_json_roundtrip
    (PyVal.dict [(PyKey.str ['b', 't', 'c'], PyVal.int 67000)]) rfl
    "data/prices.json" 2 PyVal.null (fun _ => Option.none)
